import Mathlib

/-! # Animated tile registry and dispatch pass (`animated_tile.cpp`)

A shallow embedding of the animated tile table of OpenTTD and of the loop that
animates every tile of the table once per tick.

* `_animated_tiles` is a `std::vector<TileIndex>`; it is a `List TileIndex` here.
* `MarkTileDirtyByTile` belongs to the viewport code; its calls are recorded, oldest
  first, in the `dirty` log of the state.
* The cursor `ti` of `AnimateAnimatedTiles` is a pointer into the storage of the
  vector; it is the offset `ti - _animated_tiles.data()` here.  This is what the pointer
  is as long as the storage is not reallocated: `erase` and `clear` keep the storage,
  `emplace_back` replaces it when the size has reached the capacity.  `AnimateLoop` is
  the loop without the storage; `AnimateLoopStored` is the loop on storage of a given
  capacity and gives the pass up as `dangling` when a handler makes the vector
  reallocate.
* The animation handlers are external.  Their effect on the table is the sequence of
  table calls they make; everything else they touch is an abstract world `W`.
* The loop need not terminate (a handler can delete the tile it is called for and add
  it again, each time it runs), so the loop takes a bound on the number of evaluations
  of its condition and reports `running` when the bound is used up.
-/

namespace AnimatedTile

/-- A tile of the map.  `TileIndex` is a 32 bit number in the source; the loop and the
table calls only compare tiles, no arithmetic is done on them, and the theorems are
stated for all numbers, those of 32 bits among them. -/
abbrev TileIndex := Nat

/-- Modelled from the spec: the enumeration `TileType` is declared in `tile_type.h`,
which is not part of the sources at hand.  The spec names the four categories that
have an animation handler and calls every remaining category "other". -/
inductive TileType where
  | MP_HOUSE
  | MP_STATION
  | MP_INDUSTRY
  | MP_OBJECT
  | MP_OTHER
  deriving DecidableEq, Repr

/-- The global state of the file: the table `_animated_tiles` and the log of the
calls of `MarkTileDirtyByTile`. -/
structure AnimState where
  animated_tiles : List TileIndex
  dirty : List TileIndex
  deriving DecidableEq, Repr

/-- Modelled from the spec: `include` of `core/smallvec_type.hpp`, which is not part
of the sources at hand: "if `tile` is not already present, append it to the end". -/
def vector_include (vec : List TileIndex) (item : TileIndex) : List TileIndex :=
  if item ∈ vec then vec else vec ++ [item]

/-- The call `MarkTileDirtyByTile(tile, VMDF_NOT_MAP_MODE)`: one more entry of the log. -/
def MarkTileDirtyByTile (tile : TileIndex) (s : AnimState) : AnimState :=
  { s with dirty := s.dirty ++ [tile] }

/-- Removes the given tile from the animated tile table.  `std::find` yields the
position of the first occurrence, or `end()`, which is the length of the list. -/
def DeleteAnimatedTile (tile : TileIndex) (s : AnimState) : AnimState :=
  let to_remove := s.animated_tiles.indexOf tile
  if to_remove ≠ s.animated_tiles.length then
    MarkTileDirtyByTile tile { s with animated_tiles := s.animated_tiles.eraseIdx to_remove }
  else
    s

/-- Add the given tile to the animated tile table (if it does not exist on that table
yet). -/
def AddAnimatedTile (tile : TileIndex) (s : AnimState) : AnimState :=
  let s1 := MarkTileDirtyByTile tile s
  { s1 with animated_tiles := vector_include s1.animated_tiles tile }

/-- Initialize all animated tile variables to some known begin point. -/
def InitializeAnimatedTiles (s : AnimState) : AnimState :=
  { s with animated_tiles := [] }

/-- A call into the table. -/
inductive RegistryCall where
  | add (tile : TileIndex)
  | del (tile : TileIndex)
  | init
  deriving DecidableEq, Repr

/-- The effect of one call into the table. -/
def RegistryCall.run : RegistryCall → AnimState → AnimState
  | .add tile, s => AddAnimatedTile tile s
  | .del tile, s => DeleteAnimatedTile tile s
  | .init, s => InitializeAnimatedTiles s

/-- The effect of a sequence of calls, the first call first. -/
def runCalls : List RegistryCall → AnimState → AnimState
  | [], s => s
  | c :: cs, s => runCalls cs (c.run s)

/-- The four external animation handlers. -/
inductive HandlerId where
  | Town
  | Station
  | Industry
  | Object
  deriving DecidableEq, Repr

/-- The `switch` of `AnimateAnimatedTiles`: the handler of a tile type, `none` for the
`default` branch. -/
def handlerOf : TileType → Option HandlerId
  | .MP_HOUSE => some .Town
  | .MP_STATION => some .Station
  | .MP_INDUSTRY => some .Industry
  | .MP_OBJECT => some .Object
  | .MP_OTHER => none

/-- What the loop takes from the rest of the game: the type of a tile, read from the
map, and the four handlers.  A handler gets the tile, the world and the state of the
table; it yields the next world and the calls it makes into the table. -/
structure Handlers (W : Type) where
  GetTileType : W → TileIndex → TileType
  AnimateTile_Town : TileIndex → W → AnimState → W × List RegistryCall
  AnimateTile_Station : TileIndex → W → AnimState → W × List RegistryCall
  AnimateTile_Industry : TileIndex → W → AnimState → W × List RegistryCall
  AnimateTile_Object : TileIndex → W → AnimState → W × List RegistryCall

/-- The handler with the given name. -/
def Handlers.invoke {W : Type} (env : Handlers W) :
    HandlerId → TileIndex → W → AnimState → W × List RegistryCall
  | .Town => env.AnimateTile_Town
  | .Station => env.AnimateTile_Station
  | .Industry => env.AnimateTile_Industry
  | .Object => env.AnimateTile_Object

/-- The table after the handler `k` has run for `tile`. -/
def Handlers.effect {W : Type} (env : Handlers W) (k : HandlerId) (tile : TileIndex)
    (w : W) (s : AnimState) : AnimState :=
  runCalls (env.invoke k tile w s).2 s

/-- One run of the loop body, for the record: the handler called, its argument, the
cursor, and the table before the call and after it. -/
structure DispatchEvent where
  handler : HandlerId
  tile : TileIndex
  cursor : Nat
  before : List TileIndex
  after : List TileIndex
  deriving DecidableEq, Repr

/-- The state of a pass: the world, the table, the cursor `ti` as an offset from
`_animated_tiles.data()`, and the record of the calls made so far. -/
structure PassState (W : Type) where
  world : W
  reg : AnimState
  ti : Nat
  events : List DispatchEvent

/-- What one evaluation of the loop condition leads to. -/
inductive StepResult (W : Type) where
  | exit
  | abort
  | next (st : PassState W)

/-- The record of the call of the handler `k` for `curr` in the state `st`. -/
def eventOf {W : Type} (env : Handlers W) (st : PassState W) (curr : TileIndex)
    (k : HandlerId) : DispatchEvent :=
  { handler := k, tile := curr, cursor := st.ti,
    before := st.reg.animated_tiles,
    after := (env.effect k curr st.world st.reg).animated_tiles }

/-- The loop body once the handler `k` is chosen for the tile `curr` in the slot of
the cursor: the handler runs, then `if (*ti == curr) ++ti;`.  The cursor is an offset
into the table, which is what the pointer `ti` is while the storage of the vector is
the one the pass started with; `AnimateLoopStored` tells when it is not.  The slot read
again after the call can lie behind the live end (the table has shrunk to the cursor);
the source then compares `curr` with what the storage still holds there, and the
comparison fails here.  Whatever its outcome, the cursor is not below the live end
afterwards and the loop ends at the next evaluation of its condition with no further
call, so only the cursor of the last state depends on it. -/
def AnimateBody {W : Type} (env : Handlers W) (st : PassState W) (curr : TileIndex)
    (k : HandlerId) : PassState W :=
  { world := (env.invoke k curr st.world st.reg).1
    reg := env.effect k curr st.world st.reg
    ti := if (env.effect k curr st.world st.reg).animated_tiles[st.ti]? = some curr
      then st.ti + 1 else st.ti
    events := st.events ++ [eventOf env st curr k] }

/-- One evaluation of the loop condition, and of the loop body when it holds.
`ti < data() + size()` holds exactly when the slot `ti` is a live one; `curr` is the
tile in it.  The `default` branch of the `switch` is `NOT_REACHED()`. -/
def AnimateStep {W : Type} (env : Handlers W) (st : PassState W) : StepResult W :=
  match st.reg.animated_tiles[st.ti]? with
  | none => .exit
  | some curr =>
    match handlerOf (env.GetTileType st.world curr) with
    | none => .abort
    | some k => .next (AnimateBody env st curr k)

/-- How a pass stands: the loop has ended, `NOT_REACHED()` was hit, or the bound on
the number of evaluations of the loop condition is used up. -/
inductive PassStatus where
  | finished
  | aborted
  | running
  deriving DecidableEq, Repr

/-- The loop of `AnimateAnimatedTiles`, with at most `fuel` evaluations of its
condition. -/
def AnimateLoop {W : Type} (env : Handlers W) : Nat → PassState W → PassStatus × PassState W
  | 0, st => (.running, st)
  | fuel + 1, st =>
    match AnimateStep env st with
    | .exit => (.finished, st)
    | .abort => (.aborted, st)
    | .next st1 => AnimateLoop env fuel st1

/-- Animate all tiles in the animated tile list: the loop, started with the cursor at
the first slot. -/
def AnimateAnimatedTiles {W : Type} (env : Handlers W) (fuel : Nat) (w : W) (s : AnimState) :
    PassStatus × PassState W :=
  AnimateLoop env fuel { world := w, reg := s, ti := 0, events := [] }

/-- The tiles the handlers were called for, in the order of the calls. -/
def dispatched (es : List DispatchEvent) : List TileIndex :=
  es.map DispatchEvent.tile

/-- The tiles that lay behind the cursor when a handler was called and were gone from
the table when it returned. -/
def skipped : List DispatchEvent → List TileIndex
  | [] => []
  | e :: es => (e.before.drop (e.cursor + 1)).filter (fun t => decide (t ∉ e.after)) ++ skipped es

/-- The record `e` is the record of a call made by the loop: its tile is the one in the
slot of its cursor, and its handler turns a table with the content `e.before` into one
with the content `e.after`. -/
def EventFrom {W : Type} (env : Handlers W) (e : DispatchEvent) : Prop :=
  e.before[e.cursor]? = some e.tile ∧
    ∃ w s, s.animated_tiles = e.before ∧
      (env.effect e.handler e.tile w s).animated_tiles = e.after

/-- No call of a handler changes the content of the table by more than taking one
entry out of it. -/
def RemovesAtMostOne {W : Type} (env : Handlers W) : Prop :=
  ∀ k t w s, (env.effect k t w s).animated_tiles = s.animated_tiles ∨
    ∃ u, u ∈ s.animated_tiles ∧ (env.effect k t w s).animated_tiles = s.animated_tiles.erase u

/-- A call of a handler leaves the content of the table as it is, or the table is as
after `DeleteAnimatedTile` for the tile the handler was called for. -/
def RemovesOnlyItself {W : Type} (env : Handlers W) : Prop :=
  ∀ k t w s, (env.effect k t w s).animated_tiles = s.animated_tiles ∨
    (env.effect k t w s).animated_tiles = (DeleteAnimatedTile t s).animated_tiles

/-- A handler for the examples: it makes the calls `calls tile` whatever the world and
the table are. -/
def scripted (calls : TileIndex → List RegistryCall) :
    TileIndex → Unit → AnimState → Unit × List RegistryCall :=
  fun tile _ _ => ((), calls tile)

/-- Handlers for the examples: every tile is a house and the town handler makes the
calls `calls tile`; the other three handlers make no call. -/
def townOnly (calls : TileIndex → List RegistryCall) : Handlers Unit :=
  { GetTileType := fun _ _ => TileType.MP_HOUSE
    AnimateTile_Town := scripted calls
    AnimateTile_Station := scripted (fun _ => [])
    AnimateTile_Industry := scripted (fun _ => [])
    AnimateTile_Object := scripted (fun _ => []) }

/-- No call of a handler puts an entry into the table or moves one: the content of the
table after the call is a sublist of the content before it. -/
def NeverAdds {W : Type} (env : Handlers W) : Prop :=
  ∀ k t w s, (env.effect k t w s).animated_tiles.Sublist s.animated_tiles

/-- The handlers call `DeleteAnimatedTile` and nothing else of the table. -/
def OnlyDeletes {W : Type} (env : Handlers W) : Prop :=
  ∀ k t w s, ∀ c ∈ (env.invoke k t w s).2, ∃ x, c = RegistryCall.del x

/-- Handlers for the examples: no tile has one of the four types with a handler, and
no handler makes a call. -/
def noHandler : Handlers Unit :=
  { GetTileType := fun _ _ => TileType.MP_OTHER
    AnimateTile_Town := scripted (fun _ => [])
    AnimateTile_Station := scripted (fun _ => [])
    AnimateTile_Industry := scripted (fun _ => [])
    AnimateTile_Object := scripted (fun _ => []) }

/-- Whether the call reallocates the storage of the vector, when the vector has the
capacity `cap`: `include` calls `emplace_back` for a tile that is not in the table, and
`emplace_back` moves the elements to new storage when `size()` has reached
`capacity()`.  `erase` and `clear` keep the storage. -/
def RegistryCall.reallocates (cap : Nat) : RegistryCall → AnimState → Bool
  | .add tile, s => decide (tile ∉ s.animated_tiles ∧ cap ≤ s.animated_tiles.length)
  | .del _, _ => false
  | .init, _ => false

/-- Whether one of the calls, made one after the other on a vector of capacity `cap`,
reallocates its storage. -/
def callsReallocate (cap : Nat) : List RegistryCall → AnimState → Bool
  | [], _ => false
  | c :: cs, s => c.reallocates cap s || callsReallocate cap cs (c.run s)

/-- How a pass stands when the storage of the vector is taken into account: as
`PassStatus`, and `dangling` when a handler has made the vector reallocate, so that the
pointer `ti` of the loop points into storage that is no longer that of the vector. -/
inductive StoredStatus where
  | finished
  | aborted
  | running
  | dangling
  deriving DecidableEq, Repr

/-- The loop of `AnimateAnimatedTiles` on a vector whose storage has the capacity `cap`
when the pass starts.  As long as no call of a handler reallocates, the cursor `ti` is
the pointer `data() + ti` and the loop is `AnimateLoop`.  When a call reallocates, what
the loop reads through `ti` afterwards is not defined, and the loop is given up as
`dangling` in the state in which the handler returned. -/
def AnimateLoopStored {W : Type} (env : Handlers W) (cap : Nat) :
    Nat → PassState W → StoredStatus × PassState W
  | 0, st => (.running, st)
  | fuel + 1, st =>
    match st.reg.animated_tiles[st.ti]? with
    | none => (.finished, st)
    | some curr =>
      match handlerOf (env.GetTileType st.world curr) with
      | none => (.aborted, st)
      | some k =>
        if callsReallocate cap (env.invoke k curr st.world st.reg).2 st.reg then
          (.dangling, { AnimateBody env st curr k with ti := st.ti })
        else
          AnimateLoopStored env cap fuel (AnimateBody env st curr k)

/-- Animate all tiles in the animated tile list, the list held in storage of capacity
`cap`. -/
def AnimateAnimatedTilesStored {W : Type} (env : Handlers W) (cap fuel : Nat) (w : W)
    (s : AnimState) : StoredStatus × PassState W :=
  AnimateLoopStored env cap fuel { world := w, reg := s, ti := 0, events := [] }

theorem tiles_DeleteAnimatedTile (t : TileIndex) (s : AnimState) :
    (DeleteAnimatedTile t s).animated_tiles = s.animated_tiles.erase t := by
  unfold DeleteAnimatedTile MarkTileDirtyByTile
  by_cases h : t ∈ s.animated_tiles
  · have hne : List.indexOf t s.animated_tiles ≠ s.animated_tiles.length :=
      Nat.ne_of_lt (List.indexOf_lt_length.mpr h)
    simp [hne, List.eraseIdx_indexOf_eq_erase]
  · have heq : List.indexOf t s.animated_tiles = s.animated_tiles.length :=
      List.indexOf_eq_length.mpr h
    simp [heq, List.erase_of_not_mem h]

theorem dirty_DeleteAnimatedTile (t : TileIndex) (s : AnimState) :
    (DeleteAnimatedTile t s).dirty = if t ∈ s.animated_tiles then s.dirty ++ [t] else s.dirty := by
  unfold DeleteAnimatedTile MarkTileDirtyByTile
  by_cases h : t ∈ s.animated_tiles
  · have hne : List.indexOf t s.animated_tiles ≠ s.animated_tiles.length :=
      Nat.ne_of_lt (List.indexOf_lt_length.mpr h)
    simp [hne, h]
  · have heq : List.indexOf t s.animated_tiles = s.animated_tiles.length :=
      List.indexOf_eq_length.mpr h
    simp [heq, h]

theorem tiles_AddAnimatedTile (t : TileIndex) (s : AnimState) :
    (AddAnimatedTile t s).animated_tiles = vector_include s.animated_tiles t := rfl

theorem dirty_AddAnimatedTile (t : TileIndex) (s : AnimState) :
    (AddAnimatedTile t s).dirty = s.dirty ++ [t] := rfl

theorem nodup_vector_include {l : List TileIndex} (t : TileIndex) (h : l.Nodup) :
    (vector_include l t).Nodup := by
  unfold vector_include
  split
  · exact h
  · rename_i hn
    exact List.Nodup.append h (List.nodup_singleton t) (by simpa using hn)

theorem nodup_run (c : RegistryCall) (s : AnimState) (h : s.animated_tiles.Nodup) :
    (c.run s).animated_tiles.Nodup := by
  cases c with
  | add t => exact nodup_vector_include t h
  | del t => rw [RegistryCall.run, tiles_DeleteAnimatedTile]; exact h.erase t
  | init => exact List.nodup_nil

theorem nodup_runCalls (cs : List RegistryCall) :
    ∀ s : AnimState, s.animated_tiles.Nodup → (runCalls cs s).animated_tiles.Nodup := by
  induction cs with
  | nil => intro s h; exact h
  | cons c cs ih => intro s h; exact ih _ (nodup_run c s h)

theorem getElem?_ne_of_lt_indexOf (t : TileIndex) :
    ∀ (l : List TileIndex) (j : Nat), j < List.indexOf t l → l[j]? ≠ some t := by
  intro l
  induction l with
  | nil => intro j hj; simp at hj
  | cons a l ih =>
    intro j hj
    rw [List.indexOf_cons] at hj
    by_cases hat : a = t
    · simp [hat] at hj
    · have hb : (a == t) = false := by simpa using hat
      rw [hb] at hj
      cases j with
      | zero => simpa using hat
      | succ j =>
        have : j < List.indexOf t l := by simpa using hj
        simpa using ih j this

/-! ## One call of a handler and the cursor -/

/-- A list with an entry at position `i` splits there. -/
theorem split_at_slot {l : List TileIndex} {i : Nat} {c : TileIndex} (h : l[i]? = some c) :
    ∃ pre rest, l = pre ++ c :: rest ∧ pre.length = i := by
  obtain ⟨hi, hc⟩ := List.getElem?_eq_some.mp h
  refine ⟨l.take i, l.drop (i + 1), ?_, ?_⟩
  · rw [← hc, ← List.drop_eq_getElem_cons hi, List.take_append_drop]
  · rw [List.length_take]; omega

theorem slot_append_length (pre rest : List TileIndex) :
    (pre ++ rest)[pre.length]? = rest[0]? := by
  rw [List.getElem?_append_right (Nat.le_refl _)]; simp

theorem drop_append_length (pre rest : List TileIndex) :
    (pre ++ rest).drop pre.length = rest := by
  simp

/-- The cursor after one call that erases at most one entry of a table without
duplicates: the part of the table from the new cursor on is the part that lay behind
the old cursor, without the entries that are gone. -/
theorem cursor_after_call {l l1 : List TileIndex} {i : Nat} {c : TileIndex}
    (hnd : l.Nodup) (hc : l[i]? = some c)
    (h : l1 = l ∨ ∃ u, u ∈ l ∧ l1 = l.erase u) :
    l1.drop (if l1[i]? = some c then i + 1 else i)
      = (l.drop (i + 1)).filter (fun t => decide (t ∈ l1)) := by
  obtain ⟨pre, rest, hl, hlen⟩ := split_at_slot hc
  subst hl
  subst hlen
  have hnd1 := hnd
  rw [List.nodup_append] at hnd1
  obtain ⟨hpre, hcr, hdisj⟩ := hnd1
  have hcrest : c ∉ rest := (List.nodup_cons.mp hcr).1
  have hrest : rest.Nodup := (List.nodup_cons.mp hcr).2
  have hcpre : c ∉ pre := fun hm => hdisj hm (List.mem_cons_self c rest)
  have hdrop : (pre ++ c :: rest).drop (pre.length + 1) = rest := by
    rw [show pre ++ c :: rest = (pre ++ [c]) ++ rest by simp]
    rw [show pre.length + 1 = (pre ++ [c]).length by simp]
    exact drop_append_length _ _
  have hhead : rest[0]? ≠ some c := by
    intro hh
    exact hcrest (List.getElem?_mem hh)
  rw [hdrop]
  rcases h with h | ⟨u, hu, h⟩
  · subst h
    rw [slot_append_length]
    simp only [List.getElem?_cons_zero, if_true]
    rw [hdrop]
    symm
    rw [List.filter_eq_self]
    intro a ha
    simp [ha]
  · rcases List.mem_append.mp hu with hup | huc
    · -- an entry in front of the cursor is gone
      have hl1 : l1 = pre.erase u ++ c :: rest := by
        rw [h, List.erase_append_left _ hup]
      have hlen : (pre.erase u).length + 1 = pre.length := by
        rw [List.length_erase_of_mem hup]
        have := List.length_pos_of_mem hup
        omega
      have hslot : l1[pre.length]? = rest[0]? := by
        rw [hl1, show pre.erase u ++ c :: rest = (pre.erase u ++ [c]) ++ rest by simp]
        rw [show pre.length = (pre.erase u ++ [c]).length by simp [hlen]]
        exact slot_append_length _ _
      rw [hslot, if_neg hhead]
      have hd : l1.drop pre.length = rest := by
        rw [hl1, show pre.erase u ++ c :: rest = (pre.erase u ++ [c]) ++ rest by simp]
        rw [show pre.length = (pre.erase u ++ [c]).length by simp [hlen]]
        exact drop_append_length _ _
      rw [hd]
      symm
      rw [List.filter_eq_self]
      intro a ha
      simp [hl1, ha]
    · rcases List.mem_cons.mp huc with huc | hur
      · -- the entry at the cursor is gone
        subst huc
        have hl1 : l1 = pre ++ rest := by
          rw [h, List.erase_append_right _ hcpre, List.erase_cons_head]
        have hslot : l1[pre.length]? = rest[0]? := by
          rw [hl1]; exact slot_append_length _ _
        rw [hslot, if_neg hhead]
        rw [hl1, drop_append_length]
        symm
        rw [List.filter_eq_self]
        intro a ha
        simp [ha]
      · -- an entry behind the cursor is gone
        have hune : u ≠ c := fun e => hcrest (e ▸ hur)
        have hupre : u ∉ pre := fun hm => hdisj hm (List.mem_cons_of_mem c hur)
        have hl1 : l1 = pre ++ c :: rest.erase u := by
          rw [h, List.erase_append_right _ hupre, List.erase_cons_tail (by simpa using Ne.symm hune)]
        have hslot : l1[pre.length]? = some c := by
          rw [hl1, slot_append_length]; simp
        rw [hslot, if_pos rfl]
        have hd : l1.drop (pre.length + 1) = rest.erase u := by
          rw [hl1, show pre ++ c :: rest.erase u = (pre ++ [c]) ++ rest.erase u by simp]
          rw [show pre.length + 1 = (pre ++ [c]).length by simp]
          exact drop_append_length _ _
        rw [hd, hrest.erase_eq_filter]
        apply List.filter_congr
        intro a ha
        have hapre : a ∉ pre := fun hm => hdisj hm (List.mem_cons_of_mem c ha)
        have hac : a ≠ c := fun e => hcrest (e ▸ ha)
        by_cases hau : a = u
        · subst hau
          simp [hl1, hapre, hac, hrest.not_mem_erase]
        · simp [hl1, hau, ha, (List.mem_erase_of_ne hau).mpr ha]


theorem AnimateStep_exit {W : Type} (env : Handlers W) (st : PassState W)
    (h : st.reg.animated_tiles[st.ti]? = none) : AnimateStep env st = .exit := by
  simp only [AnimateStep, h]

theorem AnimateStep_abort {W : Type} (env : Handlers W) (st : PassState W) (c : TileIndex)
    (h : st.reg.animated_tiles[st.ti]? = some c)
    (hk : handlerOf (env.GetTileType st.world c) = none) : AnimateStep env st = .abort := by
  simp only [AnimateStep, h, hk]

theorem AnimateStep_next {W : Type} (env : Handlers W) (st : PassState W) (c : TileIndex)
    (k : HandlerId) (h : st.reg.animated_tiles[st.ti]? = some c)
    (hk : handlerOf (env.GetTileType st.world c) = some k) :
    AnimateStep env st = .next (AnimateBody env st c k) := by
  simp only [AnimateStep, h, hk]

theorem mem_skipped {t : TileIndex} : ∀ {es : List DispatchEvent},
    t ∈ skipped es ↔ ∃ e, e ∈ es ∧ t ∈ e.before.drop (e.cursor + 1) ∧ t ∉ e.after := by
  intro es
  induction es with
  | nil => simp [skipped]
  | cons e es ih =>
    simp only [skipped, List.mem_append, List.mem_filter, ih, List.mem_cons]
    constructor
    · rintro (⟨h1, h2⟩ | ⟨e1, he1, h⟩)
      · exact ⟨e, Or.inl rfl, h1, by simpa using h2⟩
      · exact ⟨e1, Or.inr he1, h⟩
    · rintro ⟨e1, he1 | he1, h1, h2⟩
      · subst he1; exact Or.inl ⟨h1, by simpa using h2⟩
      · exact Or.inr ⟨e1, he1, h1, h2⟩

theorem slot_not_mem_drop {l : List TileIndex} {i : Nat} {c : TileIndex} (hnd : l.Nodup)
    (hc : l[i]? = some c) : c ∉ l.drop (i + 1) := by
  obtain ⟨hlt, hget⟩ := List.getElem?_eq_some.mp hc
  have h1 : (l.drop i).Nodup := List.Nodup.sublist (List.drop_sublist _ _) hnd
  rw [List.drop_eq_getElem_cons hlt, hget] at h1
  exact (List.nodup_cons.mp h1).1

theorem removesAtMostOne_of_onlyItself {W : Type} {env : Handlers W} (h : RemovesOnlyItself env) :
    RemovesAtMostOne env := by
  intro k t w s
  rcases h k t w s with h1 | h1
  · exact Or.inl h1
  · rw [tiles_DeleteAnimatedTile] at h1
    by_cases ht : t ∈ s.animated_tiles
    · exact Or.inr ⟨t, ht, h1⟩
    · rw [List.erase_of_not_mem ht] at h1; exact Or.inl h1

/-! ## Handlers that only take entries out -/

/-- A sublist of `c :: rest` that holds `c`, where `c` is not in `rest`, starts with `c`. -/
theorem sublist_cons_cases {q rest : List TileIndex} {c : TileIndex}
    (h : q.Sublist (c :: rest)) :
    q.Sublist rest ∨ ∃ q1, q = c :: q1 ∧ q1.Sublist rest := by
  cases h with
  | cons _ h1 => exact Or.inl h1
  | cons₂ _ h1 => exact Or.inr ⟨_, rfl, h1⟩

/-- The cursor after one call that only takes entries out of a table without
duplicates: the part of the table from the new cursor on is a sublist of the part that
lay behind the old cursor. -/
theorem cursor_after_removals {l l1 : List TileIndex} {i : Nat} {c : TileIndex}
    (hnd : l.Nodup) (hc : l[i]? = some c) (h : l1.Sublist l) :
    (l1.drop (if l1[i]? = some c then i + 1 else i)).Sublist (l.drop (i + 1)) := by
  obtain ⟨pre, rest, hl, hlen⟩ := split_at_slot hc
  subst hl
  subst hlen
  have hnd1 := hnd
  rw [List.nodup_append] at hnd1
  obtain ⟨_, hcr, hdisj⟩ := hnd1
  have hcrest : c ∉ rest := (List.nodup_cons.mp hcr).1
  have hcpre : c ∉ pre := fun hm => hdisj hm (List.mem_cons_self c rest)
  have hdrop : (pre ++ c :: rest).drop (pre.length + 1) = rest := by
    rw [show pre ++ c :: rest = (pre ++ [c]) ++ rest by simp]
    rw [show pre.length + 1 = (pre ++ [c]).length by simp]
    exact drop_append_length _ _
  rw [hdrop]
  obtain ⟨p1, q1, hl1, hp1, hq1⟩ := List.sublist_append_iff.mp h
  subst hl1
  have hple : p1.length ≤ pre.length := hp1.length_le
  have hcp1 : c ∉ p1 := fun hm => hcpre (hp1.subset hm)
  rcases sublist_cons_cases hq1 with hq | ⟨q2, hq, hq2⟩
  · -- the entry at the cursor is gone
    have hcq : c ∉ q1 := fun hm => hcrest (hq.subset hm)
    have hslot : (p1 ++ q1)[pre.length]? ≠ some c := by
      intro hh
      have := List.getElem?_mem hh
      rcases List.mem_append.mp this with h1 | h1
      · exact hcp1 h1
      · exact hcq h1
    rw [if_neg hslot, List.drop_append_eq_append_drop, List.drop_eq_nil_of_le hple,
      List.nil_append]
    exact (List.drop_sublist _ _).trans hq
  · subst hq
    by_cases hpl : p1.length = pre.length
    · -- nothing in front of the cursor is gone
      have hslot : (p1 ++ c :: q2)[pre.length]? = some c := by
        rw [← hpl, slot_append_length]; simp
      rw [if_pos hslot]
      have hd : (p1 ++ c :: q2).drop (pre.length + 1) = q2 := by
        rw [show p1 ++ c :: q2 = (p1 ++ [c]) ++ q2 by simp]
        rw [show pre.length + 1 = (p1 ++ [c]).length by simp [hpl]]
        exact drop_append_length _ _
      rw [hd]
      exact hq2
    · -- an entry in front of the cursor is gone
      have hlt : p1.length < pre.length := Nat.lt_of_le_of_ne hple hpl
      have hcq2 : c ∉ q2 := fun hm => hcrest (hq2.subset hm)
      have hd : (p1 ++ c :: q2).drop pre.length = q2.drop (pre.length - p1.length - 1) := by
        rw [List.drop_append_eq_append_drop, List.drop_eq_nil_of_le hple, List.nil_append]
        rw [show pre.length - p1.length = (pre.length - p1.length - 1) + 1 by omega]
        rfl
      have hslot : (p1 ++ c :: q2)[pre.length]? ≠ some c := by
        intro hh
        have h1 : ((p1 ++ c :: q2).drop pre.length)[0]? = some c := by
          rw [List.getElem?_drop]; simpa using hh
        rw [hd] at h1
        exact hcq2 ((List.drop_sublist _ _).subset (List.getElem?_mem h1))
      rw [if_neg hslot, hd]
      exact (List.drop_sublist _ _).trans hq2


theorem body_measure {W : Type} (env : Handlers W) (hna : NeverAdds env) (st : PassState W)
    (c : TileIndex) (k : HandlerId) (hslot : st.reg.animated_tiles[st.ti]? = some c) :
    (AnimateBody env st c k).reg.animated_tiles.length - (AnimateBody env st c k).ti
      < st.reg.animated_tiles.length - st.ti := by
  have hsub := hna k c st.world st.reg
  have hle := hsub.length_le
  have hlt : st.ti < st.reg.animated_tiles.length := (List.getElem?_eq_some.mp hslot).1
  show (env.effect k c st.world st.reg).animated_tiles.length
      - (if (env.effect k c st.world st.reg).animated_tiles[st.ti]? = some c
          then st.ti + 1 else st.ti) < _
  split
  · omega
  · rename_i hne
    have hneq : (env.effect k c st.world st.reg).animated_tiles.length
        ≠ st.reg.animated_tiles.length := by
      intro heq
      have := hsub.eq_of_length heq
      exact hne (this ▸ hslot)
    omega

theorem loop_never_adds_stops {W : Type} (env : Handlers W) (hna : NeverAdds env) :
    ∀ (fuel : Nat) (st : PassState W),
      st.reg.animated_tiles.length - st.ti < fuel →
      ∃ new, (AnimateLoop env fuel st).2.events = st.events ++ new ∧
        new.length ≤ st.reg.animated_tiles.length - st.ti ∧
        (AnimateLoop env fuel st).1 ≠ PassStatus.running ∧
        ((∀ w t, t ∈ st.reg.animated_tiles → handlerOf (env.GetTileType w t) ≠ none) →
          (AnimateLoop env fuel st).1 = PassStatus.finished ∧
          (AnimateLoop env fuel st).2.reg.animated_tiles.length ≤ (AnimateLoop env fuel st).2.ti) := by
  intro fuel
  induction fuel with
  | zero => intro st h; exact absurd h (Nat.not_lt_zero _)
  | succ n ih =>
    intro st hfuel
    cases hslot : st.reg.animated_tiles[st.ti]? with
    | none =>
      have hloop : AnimateLoop env (n + 1) st = (PassStatus.finished, st) := by
        simp only [AnimateLoop, AnimateStep_exit env st hslot]
      rw [hloop]
      have hle : st.reg.animated_tiles.length ≤ st.ti := List.getElem?_eq_none_iff.mp hslot
      exact ⟨[], by simp, by simp, by simp, fun _ => ⟨rfl, hle⟩⟩
    | some c =>
      have hcmem : c ∈ st.reg.animated_tiles := List.getElem?_mem hslot
      have hlt : st.ti < st.reg.animated_tiles.length := (List.getElem?_eq_some.mp hslot).1
      cases hk : handlerOf (env.GetTileType st.world c) with
      | none =>
        have hloop : AnimateLoop env (n + 1) st = (PassStatus.aborted, st) := by
          simp only [AnimateLoop, AnimateStep_abort env st c hslot hk]
        rw [hloop]
        exact ⟨[], by simp, by simp, by simp, fun hcat => absurd hk (hcat st.world c hcmem)⟩
      | some k =>
        have hloop : AnimateLoop env (n + 1) st = AnimateLoop env n (AnimateBody env st c k) := by
          simp only [AnimateLoop, AnimateStep_next env st c k hslot hk]
        rw [hloop]
        have hm := body_measure env hna st c k hslot
        obtain ⟨new1, hev, hlen, hrun, hfin⟩ := ih (AnimateBody env st c k) (by omega)
        refine ⟨eventOf env st c k :: new1, ?_, ?_, hrun, ?_⟩
        · rw [hev]; simp [AnimateBody]
        · simp only [List.length_cons]; omega
        · intro hcat
          exact hfin (fun w t ht => hcat w t ((hna k c st.world st.reg).subset ht))

theorem neverAdds_of_removesAtMostOne {W : Type} {env : Handlers W}
    (h : RemovesAtMostOne env) : NeverAdds env := by
  intro k t w s
  rcases h k t w s with h1 | ⟨u, _, h1⟩
  · rw [h1]
  · rw [h1]; exact List.erase_sublist u _

/-- When the handlers add nothing and every tile of the table has a handler, whatever
the world, `NOT_REACHED()` is not hit in a pass. -/
theorem pass_reaches_of_handled {W : Type} (env : Handlers W) (w : W) (s : AnimState)
    (fuel : Nat) (hna : NeverAdds env)
    (hcat : ∀ w t, t ∈ s.animated_tiles → handlerOf (env.GetTileType w t) ≠ none)
    (hfuel : s.animated_tiles.length < fuel) :
    (AnimateAnimatedTiles env fuel w s).1 ≠ PassStatus.aborted := by
  obtain ⟨_, _, _, _, hfin⟩ := loop_never_adds_stops env hna fuel
    { world := w, reg := s, ti := 0, events := [] } (by simpa using hfuel)
  have h1 : (AnimateAnimatedTiles env fuel w s).1 = PassStatus.finished := (hfin hcat).1
  rw [h1]
  exact fun h => PassStatus.noConfusion h

theorem loop_never_adds_sublist {W : Type} (env : Handlers W) (hna : NeverAdds env) :
    ∀ (fuel : Nat) (st : PassState W), st.reg.animated_tiles.Nodup →
      ∃ new, (AnimateLoop env fuel st).2.events = st.events ++ new ∧
        (dispatched new).Sublist (st.reg.animated_tiles.drop st.ti) := by
  intro fuel
  induction fuel with
  | zero => intro st _; exact ⟨[], by simp [AnimateLoop], by simp [dispatched]⟩
  | succ n ih =>
    intro st hnd
    cases hslot : st.reg.animated_tiles[st.ti]? with
    | none =>
      simp only [AnimateLoop, AnimateStep_exit env st hslot]
      exact ⟨[], by simp, by simp [dispatched]⟩
    | some c =>
      obtain ⟨hlt, hget⟩ := List.getElem?_eq_some.mp hslot
      cases hk : handlerOf (env.GetTileType st.world c) with
      | none =>
        simp only [AnimateLoop, AnimateStep_abort env st c hslot hk]
        exact ⟨[], by simp, by simp [dispatched]⟩
      | some k =>
        simp only [AnimateLoop, AnimateStep_next env st c k hslot hk]
        have hsub := hna k c st.world st.reg
        have hcur : (List.drop (AnimateBody env st c k).ti
            (AnimateBody env st c k).reg.animated_tiles).Sublist
              (st.reg.animated_tiles.drop (st.ti + 1)) :=
          cursor_after_removals hnd hslot hsub
        obtain ⟨new1, hev, hdisp⟩ := ih (AnimateBody env st c k) (hnd.sublist hsub)
        refine ⟨eventOf env st c k :: new1, ?_, ?_⟩
        · rw [hev]; simp [AnimateBody]
        · rw [List.drop_eq_getElem_cons hlt, hget]
          show (c :: dispatched new1).Sublist _
          exact (hdisp.trans hcur).cons₂ c

theorem runCalls_dels (cs : List RegistryCall) :
    ∀ s : AnimState, (∀ c, c ∈ cs → ∃ x, c = RegistryCall.del x) →
      (runCalls cs s).animated_tiles.Sublist s.animated_tiles := by
  induction cs with
  | nil => intro s _; exact List.Sublist.refl _
  | cons c cs ih =>
    intro s h
    obtain ⟨x, hx⟩ := h c (List.mem_cons_self c cs)
    have h1 := ih (c.run s) (fun c1 hc1 => h c1 (List.mem_cons_of_mem c hc1))
    subst hx
    refine h1.trans ?_
    show (DeleteAnimatedTile x s).animated_tiles.Sublist _
    rw [tiles_DeleteAnimatedTile]
    exact List.erase_sublist x _

theorem neverAdds_of_onlyDeletes {W : Type} {env : Handlers W} (h : OnlyDeletes env) :
    NeverAdds env :=
  fun k t w s => runCalls_dels _ s (h k t w s)

/-! ## Single removals, call by call -/

theorem AnimateLoop_events {W : Type} (env : Handlers W) :
    ∀ (fuel : Nat) (st : PassState W),
      ∃ new, (AnimateLoop env fuel st).2.events = st.events ++ new := by
  intro fuel
  induction fuel with
  | zero => intro st; exact ⟨[], by simp [AnimateLoop]⟩
  | succ n ih =>
    intro st
    cases hslot : st.reg.animated_tiles[st.ti]? with
    | none =>
      simp only [AnimateLoop, AnimateStep_exit env st hslot]
      exact ⟨[], by simp⟩
    | some c =>
      cases hk : handlerOf (env.GetTileType st.world c) with
      | none =>
        simp only [AnimateLoop, AnimateStep_abort env st c hslot hk]
        exact ⟨[], by simp⟩
      | some k =>
        simp only [AnimateLoop, AnimateStep_next env st c k hslot hk]
        obtain ⟨new, hnew⟩ := ih (AnimateBody env st c k)
        exact ⟨eventOf env st c k :: new, by rw [hnew]; simp [AnimateBody]⟩

theorem loop_removals_of_run {W : Type} (env : Handlers W) :
    ∀ (fuel : Nat) (st : PassState W),
      st.reg.animated_tiles.Nodup →
      (st.reg.animated_tiles.drop st.ti).length < fuel →
      (AnimateLoop env fuel st).1 ≠ PassStatus.aborted →
      (∀ e, e ∈ (AnimateLoop env fuel st).2.events.drop st.events.length →
        e.after = e.before ∨ ∃ u, u ∈ e.before ∧ e.after = e.before.erase u) →
      ∃ fin new, AnimateLoop env fuel st = (PassStatus.finished, fin) ∧
        fin.events = st.events ++ new ∧
        dispatched new = (st.reg.animated_tiles.drop st.ti).filter
          (fun t => decide (t ∉ skipped new)) ∧
        (∀ t, t ∈ skipped new → t ∈ st.reg.animated_tiles.drop st.ti) ∧
        (∀ e, e ∈ new → e.before.Nodup ∧ e.before[e.cursor]? = some e.tile) := by
  intro fuel
  induction fuel with
  | zero => intro st _ h; exact absurd h (Nat.not_lt_zero _)
  | succ n ih =>
    intro st hnd hfuel hnab hrun
    cases hslot : st.reg.animated_tiles[st.ti]? with
    | none =>
      refine ⟨st, [], ?_, by simp, ?_, ?_, ?_⟩
      · simp only [AnimateLoop, AnimateStep_exit env st hslot]
      · have : st.reg.animated_tiles.length ≤ st.ti := List.getElem?_eq_none_iff.mp hslot
        simp [dispatched, List.drop_eq_nil_of_le this]
      · intro t ht; simp [skipped] at ht
      · intro e he; simp at he
    | some c =>
      obtain ⟨hlt, hget⟩ := List.getElem?_eq_some.mp hslot
      cases hk : handlerOf (env.GetTileType st.world c) with
      | none =>
        have hloop : AnimateLoop env (n + 1) st = (PassStatus.aborted, st) := by
          simp only [AnimateLoop, AnimateStep_abort env st c hslot hk]
        rw [hloop] at hnab
        exact absurd rfl hnab
      | some k =>
        have hloop : AnimateLoop env (n + 1) st = AnimateLoop env n (AnimateBody env st c k) := by
          simp only [AnimateLoop, AnimateStep_next env st c k hslot hk]
        rw [hloop] at hnab hrun
        obtain ⟨new0, hnew0⟩ := AnimateLoop_events env n (AnimateBody env st c k)
        have hall : (AnimateLoop env n (AnimateBody env st c k)).2.events.drop st.events.length
            = eventOf env st c k :: new0 := by
          rw [hnew0]
          show ((st.events ++ [eventOf env st c k]) ++ new0).drop st.events.length = _
          rw [List.append_assoc, List.drop_left]
          rfl
        have hrest : (AnimateLoop env n (AnimateBody env st c k)).2.events.drop
            (AnimateBody env st c k).events.length = new0 := by
          rw [hnew0, List.drop_left]
        have heff : (env.effect k c st.world st.reg).animated_tiles = st.reg.animated_tiles ∨
            ∃ u, u ∈ st.reg.animated_tiles ∧
              (env.effect k c st.world st.reg).animated_tiles = st.reg.animated_tiles.erase u :=
          hrun (eventOf env st c k) (by rw [hall]; exact List.mem_cons_self _ _)
        have hcur : List.drop (AnimateBody env st c k).ti (AnimateBody env st c k).reg.animated_tiles
            = (st.reg.animated_tiles.drop (st.ti + 1)).filter
                (fun t => decide (t ∈ (env.effect k c st.world st.reg).animated_tiles)) :=
          cursor_after_call hnd hslot heff
        have hnd1 : (env.effect k c st.world st.reg).animated_tiles.Nodup := by
          rcases heff with h | ⟨u, _, h⟩
          · rw [h]; exact hnd
          · rw [h]; exact hnd.erase u
        have hdrop : st.reg.animated_tiles.drop st.ti
            = c :: st.reg.animated_tiles.drop (st.ti + 1) := by
          rw [List.drop_eq_getElem_cons hlt, hget]
        have hcrest : c ∉ st.reg.animated_tiles.drop (st.ti + 1) := by
          have h1 : (st.reg.animated_tiles.drop st.ti).Nodup :=
            List.Nodup.sublist (List.drop_sublist _ _) hnd
          rw [hdrop] at h1
          exact (List.nodup_cons.mp h1).1
        rw [hdrop] at hfuel
        obtain ⟨fin, new1, hrun1, hev, hdisp, hskip, hfrom⟩ := ih (AnimateBody env st c k)
          hnd1
          (by
            rw [hcur]
            have := List.length_filter_le
              (fun t => decide (t ∈ (env.effect k c st.world st.reg).animated_tiles))
              (st.reg.animated_tiles.drop (st.ti + 1))
            simp only [List.length_cons] at hfuel
            omega)
          hnab
          (fun e he => hrun e (by
            rw [hall]; rw [hrest] at he; exact List.mem_cons_of_mem _ he))
        refine ⟨fin, eventOf env st c k :: new1, ?_, ?_, ?_, ?_, ?_⟩
        · rw [hloop]; exact hrun1
        · rw [hev]; simp [AnimateBody]
        · have hskip1 : ∀ t, t ∈ skipped new1 → t ∈ st.reg.animated_tiles.drop (st.ti + 1) := by
            intro t ht
            have := hskip t ht
            rw [hcur] at this
            exact (List.mem_filter.mp this).1
          rw [hdrop]
          rw [hcur, List.filter_filter] at hdisp
          have hc1 : c ∉ skipped (eventOf env st c k :: new1) := by
            simp only [skipped, eventOf, List.mem_append, List.mem_filter, not_or]
            exact ⟨fun h => hcrest h.1, fun h => hcrest (hskip1 c h)⟩
          show c :: dispatched new1 = _
          rw [hdisp]
          rw [List.filter_cons_of_pos (by simpa using hc1)]
          congr 1
          apply List.filter_congr
          intro a ha
          simp only [skipped, eventOf, List.mem_append, List.mem_filter, ha, true_and]
          by_cases h1 : a ∈ (env.effect k c st.world st.reg).animated_tiles <;>
            by_cases h2 : a ∈ skipped new1 <;> simp [h1, h2]
        · intro t ht
          rw [hdrop]
          simp only [skipped, eventOf, List.mem_append, List.mem_filter] at ht
          rcases ht with ht | ht
          · exact List.mem_cons_of_mem c ht.1
          · have := hskip t ht
            rw [hcur] at this
            exact List.mem_cons_of_mem c (List.mem_filter.mp this).1
        · intro e he
          rcases List.mem_cons.mp he with he | he
          · subst he
            exact ⟨hnd, hslot⟩
          · exact hfrom e he

theorem AnimateLoop_eventFrom {W : Type} (env : Handlers W) :
    ∀ (fuel : Nat) (st : PassState W) (e : DispatchEvent),
      e ∈ (AnimateLoop env fuel st).2.events.drop st.events.length → EventFrom env e := by
  intro fuel
  induction fuel with
  | zero => intro st e he; simp [AnimateLoop] at he
  | succ n ih =>
    intro st e he
    cases hslot : st.reg.animated_tiles[st.ti]? with
    | none =>
      simp [AnimateLoop, AnimateStep_exit env st hslot] at he
    | some c =>
      cases hk : handlerOf (env.GetTileType st.world c) with
      | none =>
        simp [AnimateLoop, AnimateStep_abort env st c hslot hk] at he
      | some k =>
        have hloop : AnimateLoop env (n + 1) st = AnimateLoop env n (AnimateBody env st c k) := by
          simp only [AnimateLoop, AnimateStep_next env st c k hslot hk]
        rw [hloop] at he
        obtain ⟨new0, hnew0⟩ := AnimateLoop_events env n (AnimateBody env st c k)
        have hall : (AnimateLoop env n (AnimateBody env st c k)).2.events.drop st.events.length
            = eventOf env st c k :: new0 := by
          rw [hnew0]
          show ((st.events ++ [eventOf env st c k]) ++ new0).drop st.events.length = _
          rw [List.append_assoc, List.drop_left]
          rfl
        have hrest : (AnimateLoop env n (AnimateBody env st c k)).2.events.drop
            (AnimateBody env st c k).events.length = new0 := by
          rw [hnew0, List.drop_left]
        rw [hall] at he
        rcases List.mem_cons.mp he with he | he
        · subst he
          exact ⟨hslot, st.world, st.reg, rfl, rfl⟩
        · exact ih (AnimateBody env st c k) e (by rw [hrest]; exact he)

theorem pass_single_removal {W : Type} (env : Handlers W) (w : W) (s : AnimState) (fuel : Nat)
    (hnd : s.animated_tiles.Nodup) (hrem : RemovesAtMostOne env)
    (hfuel : s.animated_tiles.length < fuel)
    (hreached : (AnimateAnimatedTiles env fuel w s).1 ≠ PassStatus.aborted) :
    (AnimateAnimatedTiles env fuel w s).1 = PassStatus.finished ∧
      dispatched (AnimateAnimatedTiles env fuel w s).2.events
        = s.animated_tiles.filter
            (fun t => decide (t ∉ skipped (AnimateAnimatedTiles env fuel w s).2.events)) ∧
      (∀ e, e ∈ (AnimateAnimatedTiles env fuel w s).2.events → e.before.Nodup ∧ EventFrom env e) := by
  have hfrom0 : ∀ e, e ∈ (AnimateAnimatedTiles env fuel w s).2.events → EventFrom env e := by
    intro e he
    exact AnimateLoop_eventFrom env fuel { world := w, reg := s, ti := 0, events := [] } e
      (by simpa [AnimateAnimatedTiles] using he)
  obtain ⟨fin, new, hrun, hev, hdisp, _, hfrom⟩ := loop_removals_of_run env fuel
    { world := w, reg := s, ti := 0, events := [] } hnd (by simpa using hfuel) hreached
    (fun e he => by
      have he1 : e ∈ (AnimateAnimatedTiles env fuel w s).2.events := by
        simpa [AnimateAnimatedTiles] using he
      obtain ⟨_, w0, s0, hs0, heff⟩ := hfrom0 e he1
      rcases hrem e.handler e.tile w0 s0 with h | ⟨u, hu, h⟩
      · exact Or.inl (by rw [← heff, h, hs0])
      · exact Or.inr ⟨u, hs0 ▸ hu, by rw [← heff, h, hs0]⟩)
  have hev1 : fin.events = new := by simpa using hev
  have hpass : AnimateAnimatedTiles env fuel w s = (PassStatus.finished, fin) := hrun
  rw [hpass] at hfrom0 ⊢
  show PassStatus.finished = PassStatus.finished ∧
    dispatched fin.events = s.animated_tiles.filter (fun t => decide (t ∉ skipped fin.events)) ∧
    (∀ e, e ∈ fin.events → e.before.Nodup ∧ EventFrom env e)
  rw [hev1] at hfrom0 ⊢
  exact ⟨rfl, by simpa using hdisp, fun e he => ⟨(hfrom e he).1, hfrom0 e he⟩⟩

/-! ## The storage of the vector -/

theorem callsReallocate_dels (cap : Nat) (cs : List RegistryCall) :
    ∀ s : AnimState, (∀ c, c ∈ cs → ∃ x, c = RegistryCall.del x) →
      callsReallocate cap cs s = false := by
  induction cs with
  | nil => intro s _; rfl
  | cons c cs ih =>
    intro s h
    obtain ⟨x, hx⟩ := h c (List.mem_cons_self c cs)
    subst hx
    simp only [callsReallocate, RegistryCall.reallocates, Bool.false_or]
    exact ih _ (fun c1 hc1 => h c1 (List.mem_cons_of_mem _ hc1))

/-- With handlers that only delete, no storage is ever reallocated: the loop on storage
of any capacity is never left `dangling`, so it is the loop without the storage. -/
theorem AnimateLoopStored_of_onlyDeletes {W : Type} (env : Handlers W) (hdel : OnlyDeletes env)
    (cap : Nat) :
    ∀ (fuel : Nat) (st : PassState W),
      (AnimateLoopStored env cap fuel st).1 ≠ StoredStatus.dangling := by
  intro fuel
  induction fuel with
  | zero => intro st; simp [AnimateLoopStored]
  | succ n ih =>
    intro st
    cases hslot : st.reg.animated_tiles[st.ti]? with
    | none => simp [AnimateLoopStored, hslot]
    | some c =>
      cases hk : handlerOf (env.GetTileType st.world c) with
      | none => simp [AnimateLoopStored, hslot, hk]
      | some k =>
        have hre := callsReallocate_dels cap _ st.reg (hdel k c st.world st.reg)
        have hloop : AnimateLoopStored env cap (n + 1) st
            = AnimateLoopStored env cap n (AnimateBody env st c k) := by
          simp only [AnimateLoopStored, hslot, hk, hre]
          rfl
        rw [hloop]
        exact ih _

theorem effect_townOnly (calls : TileIndex → List RegistryCall) (k : HandlerId)
    (t : TileIndex) (w : Unit) (s : AnimState) :
    (townOnly calls).effect k t w s
      = runCalls (if k = HandlerId.Town then calls t else []) s := by
  cases k <;> rfl

theorem tiles_runCalls_del (u : TileIndex) (s : AnimState) :
    (runCalls [RegistryCall.del u] s).animated_tiles = s.animated_tiles.erase u :=
  tiles_DeleteAnimatedTile u s

theorem removesAtMostOne_townOnly (calls : TileIndex → List RegistryCall)
    (h : ∀ t, calls t = [] ∨ ∃ u, calls t = [RegistryCall.del u]) :
    RemovesAtMostOne (townOnly calls) := by
  intro k t w s
  rw [effect_townOnly]
  split
  · rcases h t with h1 | ⟨u, h1⟩
    · rw [h1]; exact Or.inl rfl
    · rw [h1, tiles_runCalls_del]
      by_cases hu : u ∈ s.animated_tiles
      · exact Or.inr ⟨u, hu, rfl⟩
      · exact Or.inl (List.erase_of_not_mem hu)
  · exact Or.inl rfl

theorem removesOnlyItself_townOnly (calls : TileIndex → List RegistryCall)
    (h : ∀ t, calls t = [] ∨ calls t = [RegistryCall.del t]) :
    RemovesOnlyItself (townOnly calls) := by
  intro k t w s
  rw [effect_townOnly]
  split
  · rcases h t with h1 | h1
    · rw [h1]; exact Or.inl rfl
    · rw [h1]; exact Or.inr rfl
  · exact Or.inl rfl

/-- With the cursor at the live end or behind it the loop ends at the next evaluation of
its condition, with no call.  So after a call that has shrunk the table to the cursor,
the pass ends in the same way whether the cursor was advanced or not: the outcome of
the comparison with the dead slot decides nothing but the last value of the cursor. -/
theorem AnimateLoop_behind_live_end {W : Type} (env : Handlers W) (fuel : Nat)
    (st : PassState W) (ti1 : Nat) (h : st.reg.animated_tiles.length ≤ ti1) :
    AnimateLoop env (fuel + 1) { st with ti := ti1 }
      = (PassStatus.finished, { st with ti := ti1 }) := by
  have hslot : ({ st with ti := ti1 } : PassState W).reg.animated_tiles[
      ({ st with ti := ti1 } : PassState W).ti]? = none :=
    List.getElem?_eq_none_iff.mpr h
  simp only [AnimateLoop, AnimateStep_exit env _ hslot]

theorem AnimateLoop_of_empty {W : Type} (env : Handlers W) (fuel : Nat) (st : PassState W)
    (h : st.reg.animated_tiles = []) :
    AnimateStep env st = StepResult.exit ∧
      AnimateLoop env (fuel + 1) st = (PassStatus.finished, st) := by
  have hslot : st.reg.animated_tiles[st.ti]? = none := by rw [h]; rfl
  have hstep := AnimateStep_exit env st hslot
  exact ⟨hstep, by simp only [AnimateLoop, hstep]⟩

theorem onlyDeletes_townOnly (calls : TileIndex → List RegistryCall)
    (h : ∀ t c, c ∈ calls t → ∃ x, c = RegistryCall.del x) : OnlyDeletes (townOnly calls) := by
  intro k t w s c hc
  cases k with
  | Town => exact h t c hc
  | Station => exact absurd hc (List.not_mem_nil c)
  | Industry => exact absurd hc (List.not_mem_nil c)
  | Object => exact absurd hc (List.not_mem_nil c)

/-! ## The claims -/

/-- Claim C1.  A pass over a table without duplicates whose handlers add nothing and
take out at most one entry per call (in front of the cursor, at it or behind it) ends,
given a bound above the size of the table and that `NOT_REACHED()` is not hit.  The tiles
the handlers were called for form a sublist of the table at the start, so they come in
the order of the table and none comes twice.  Every tile of the table at the start was
either called for exactly once, or it was never called for and went out of the table
during the call for another tile while it lay behind the cursor. -/
theorem pass_with_single_removals {W : Type} (env : Handlers W) (w : W) (s : AnimState)
    (fuel : Nat) (hnd : s.animated_tiles.Nodup) (hrem : RemovesAtMostOne env)
    (hfuel : s.animated_tiles.length < fuel)
    (hreached : (AnimateAnimatedTiles env fuel w s).1 ≠ PassStatus.aborted) :
    (AnimateAnimatedTiles env fuel w s).1 = PassStatus.finished ∧
      (dispatched (AnimateAnimatedTiles env fuel w s).2.events).Sublist s.animated_tiles ∧
      ∀ t, t ∈ s.animated_tiles →
        (dispatched (AnimateAnimatedTiles env fuel w s).2.events).count t = 1 ∨
        ((dispatched (AnimateAnimatedTiles env fuel w s).2.events).count t = 0 ∧
          ∃ e, e ∈ (AnimateAnimatedTiles env fuel w s).2.events ∧
            e.before[e.cursor]? = some e.tile ∧ e.tile ≠ t ∧
            t ∈ e.before.drop (e.cursor + 1) ∧ t ∉ e.after) := by
  obtain ⟨hfin, hdisp, hfrom⟩ := pass_single_removal env w s fuel hnd hrem hfuel hreached
  have hsub : (dispatched (AnimateAnimatedTiles env fuel w s).2.events).Sublist
      s.animated_tiles := by
    rw [hdisp]; exact List.filter_sublist _
  refine ⟨hfin, hsub, ?_⟩
  intro t ht
  by_cases hsk : t ∈ skipped (AnimateAnimatedTiles env fuel w s).2.events
  · right
    constructor
    · rw [List.count_eq_zero, hdisp, List.mem_filter]
      intro h
      exact (of_decide_eq_true h.2) hsk
    · obtain ⟨e, he, hdrop, hafter⟩ := mem_skipped.mp hsk
      obtain ⟨hend, hslot, _⟩ := hfrom e he
      refine ⟨e, he, hslot, ?_, hdrop, hafter⟩
      intro heq
      exact slot_not_mem_drop hend hslot (heq ▸ hdrop)
  · left
    apply List.count_eq_one_of_mem (hnd.sublist hsub)
    rw [hdisp, List.mem_filter]
    exact ⟨ht, decide_eq_true hsk⟩

/-- The pass over `[1, 2, 3, 4]` in which the call for `3` deletes `1`, a tile in front
of the cursor. -/
theorem pass_with_single_removals_witness :
    RemovesAtMostOne (townOnly (fun t => if t = 3 then [RegistryCall.del 1] else [])) ∧
    (AnimateAnimatedTiles (townOnly (fun t => if t = 3 then [RegistryCall.del 1] else [])) 5 ()
      { animated_tiles := [1, 2, 3, 4], dirty := [] }).1 = PassStatus.finished ∧
    (dispatched (AnimateAnimatedTiles
      (townOnly (fun t => if t = 3 then [RegistryCall.del 1] else [])) 5 ()
      { animated_tiles := [1, 2, 3, 4], dirty := [] }).2.events).Sublist [1, 2, 3, 4] :=
  have hrem : RemovesAtMostOne
      (townOnly (fun t => if t = 3 then [RegistryCall.del 1] else [])) :=
    removesAtMostOne_townOnly _ (fun t => by by_cases h : t = 3 <;> simp [h])
  have h := pass_with_single_removals
    (townOnly (fun t => if t = 3 then [RegistryCall.del 1] else [])) ()
    { animated_tiles := [1, 2, 3, 4], dirty := [] } 5 (by decide) hrem (by decide) (by decide)
  ⟨hrem, h.1, h.2.1⟩

/-- Claim C2.  A pass over a table without duplicates whose handlers leave the table
alone or delete the tile they are called for ends, given a bound above the size of the
table and that `NOT_REACHED()` is not hit, and the handlers are called for exactly the
tiles of the table at the start, each once, in the order of the table. -/
theorem pass_with_self_removals {W : Type} (env : Handlers W) (w : W) (s : AnimState)
    (fuel : Nat) (hnd : s.animated_tiles.Nodup) (hself : RemovesOnlyItself env)
    (hfuel : s.animated_tiles.length < fuel)
    (hreached : (AnimateAnimatedTiles env fuel w s).1 ≠ PassStatus.aborted) :
    (AnimateAnimatedTiles env fuel w s).1 = PassStatus.finished ∧
      dispatched (AnimateAnimatedTiles env fuel w s).2.events = s.animated_tiles := by
  obtain ⟨hfin, hdisp, hfrom⟩ :=
    pass_single_removal env w s fuel hnd (removesAtMostOne_of_onlyItself hself) hfuel hreached
  refine ⟨hfin, ?_⟩
  rw [hdisp, List.filter_eq_self]
  intro t _
  apply decide_eq_true
  intro hsk
  obtain ⟨e, he, hdrop, hafter⟩ := mem_skipped.mp hsk
  obtain ⟨hend, hslot, w0, s0, hs0, heff⟩ := hfrom e he
  have htb : t ∈ e.before := List.mem_of_mem_drop hdrop
  have hne : t ≠ e.tile := fun heq => slot_not_mem_drop hend hslot (heq ▸ hdrop)
  rcases hself e.handler e.tile w0 s0 with h1 | h1
  · rw [heff, hs0] at h1
    exact hafter (h1 ▸ htb)
  · rw [heff, tiles_DeleteAnimatedTile, hs0] at h1
    exact hafter (h1 ▸ (List.mem_erase_of_ne hne).mpr htb)

/-- The pass over `[1, 2, 3]` in which the call for `1` deletes `1`: the calls are for
`1`, `2`, `3`. -/
theorem pass_with_self_removals_witness :
    RemovesOnlyItself (townOnly (fun t => if t = 1 then [RegistryCall.del t] else [])) ∧
    (AnimateAnimatedTiles (townOnly (fun t => if t = 1 then [RegistryCall.del t] else [])) 4 ()
      { animated_tiles := [1, 2, 3], dirty := [] }).1 = PassStatus.finished ∧
    dispatched (AnimateAnimatedTiles
      (townOnly (fun t => if t = 1 then [RegistryCall.del t] else [])) 4 ()
      { animated_tiles := [1, 2, 3], dirty := [] }).2.events = [1, 2, 3] :=
  have hself : RemovesOnlyItself
      (townOnly (fun t => if t = 1 then [RegistryCall.del t] else [])) :=
    removesOnlyItself_townOnly _ (fun t => by by_cases h : t = 1 <;> simp [h])
  ⟨hself, pass_with_self_removals
    (townOnly (fun t => if t = 1 then [RegistryCall.del t] else [])) ()
    { animated_tiles := [1, 2, 3], dirty := [] } 4 (by decide) hself (by decide) (by decide)⟩

/-- Claim C3.  A pass over a table without duplicates in which every call of a handler
leaves the content of the table as it is or takes out one entry that lies behind the
cursor, and in which `NOT_REACHED()` is not hit, has ended once the bound on the
evaluations of the loop condition is above the size of the table.  The tiles called for
form a sublist of the table at the start, so they come in the order of the table and
none comes twice; a tile that went out of the table during a call is never called for;
every tile of the table at the start that no call took out is called for exactly
once. -/
theorem pass_with_removals_ahead {W : Type} (env : Handlers W) (w : W) (s : AnimState)
    (fuel : Nat) (hnd : s.animated_tiles.Nodup) (hfuel : s.animated_tiles.length < fuel)
    (hreached : (AnimateAnimatedTiles env fuel w s).1 ≠ PassStatus.aborted)
    (hahead : ∀ e, e ∈ (AnimateAnimatedTiles env fuel w s).2.events →
      e.after = e.before ∨
        ∃ u, u ∈ e.before.drop (e.cursor + 1) ∧ e.after = e.before.erase u) :
    (AnimateAnimatedTiles env fuel w s).1 = PassStatus.finished ∧
      (dispatched (AnimateAnimatedTiles env fuel w s).2.events).Sublist s.animated_tiles ∧
      (∀ e t, e ∈ (AnimateAnimatedTiles env fuel w s).2.events → t ∈ e.before → t ∉ e.after →
        t ∉ dispatched (AnimateAnimatedTiles env fuel w s).2.events) ∧
      (∀ t, t ∈ s.animated_tiles →
        (∀ e, e ∈ (AnimateAnimatedTiles env fuel w s).2.events → t ∈ e.before → t ∈ e.after) →
        (dispatched (AnimateAnimatedTiles env fuel w s).2.events).count t = 1) := by
  obtain ⟨fin, new, hrun, hev, hdisp, _, _⟩ := loop_removals_of_run env fuel
    { world := w, reg := s, ti := 0, events := [] } hnd (by simpa using hfuel) hreached
    (fun e he => by
      have he1 : e ∈ (AnimateAnimatedTiles env fuel w s).2.events := by
        simpa [AnimateAnimatedTiles] using he
      rcases hahead e he1 with h | ⟨u, hu, h⟩
      · exact Or.inl h
      · exact Or.inr ⟨u, List.mem_of_mem_drop hu, h⟩)
  have hev1 : fin.events = new := by simpa using hev
  have hpass : AnimateAnimatedTiles env fuel w s = (PassStatus.finished, fin) := hrun
  rw [hpass] at hahead ⊢
  simp only [hev1] at hahead ⊢
  have hdisp1 : dispatched new
      = s.animated_tiles.filter (fun t => decide (t ∉ skipped new)) := by
    simpa using hdisp
  have hsub : (dispatched new).Sublist s.animated_tiles := by
    rw [hdisp1]; exact List.filter_sublist _
  refine ⟨trivial, hsub, ?_, ?_⟩
  · intro e t he htb hafter
    have hsk : t ∈ skipped new := by
      refine mem_skipped.mpr ⟨e, he, ?_, hafter⟩
      rcases hahead e he with h1 | ⟨u, hu, h1⟩
      · exact absurd (h1 ▸ htb) hafter
      · have htu : t = u := by
          by_contra hne
          exact hafter (h1 ▸ (List.mem_erase_of_ne hne).mpr htb)
        exact htu ▸ hu
    rw [hdisp1, List.mem_filter]
    intro h
    exact (of_decide_eq_true h.2) hsk
  · intro t ht hkeep
    apply List.count_eq_one_of_mem (hnd.sublist hsub)
    rw [hdisp1, List.mem_filter]
    refine ⟨ht, decide_eq_true ?_⟩
    intro hsk
    obtain ⟨e, he, hdrop, hafter⟩ := mem_skipped.mp hsk
    exact hafter (hkeep e he (List.mem_of_mem_drop hdrop))

/-- The pass over `[1, 2, 3, 4]` in which the call for `1` deletes `3`: the calls are
for `1`, `2`, `4`. -/
theorem pass_with_removals_ahead_witness :
    (([1, 2, 3, 4] : List TileIndex).Nodup ∧
      (AnimateAnimatedTiles (townOnly (fun t => if t = 1 then [RegistryCall.del 3] else [])) 5 ()
        { animated_tiles := [1, 2, 3, 4], dirty := [] }).1 ≠ PassStatus.aborted ∧
      ∀ e, e ∈ (AnimateAnimatedTiles
          (townOnly (fun t => if t = 1 then [RegistryCall.del 3] else [])) 5 ()
          { animated_tiles := [1, 2, 3, 4], dirty := [] }).2.events →
        e.after = e.before ∨
          ∃ u, u ∈ e.before.drop (e.cursor + 1) ∧ e.after = e.before.erase u) ∧
    (AnimateAnimatedTiles (townOnly (fun t => if t = 1 then [RegistryCall.del 3] else [])) 5 ()
      { animated_tiles := [1, 2, 3, 4], dirty := [] }).1 = PassStatus.finished ∧
    (dispatched (AnimateAnimatedTiles
      (townOnly (fun t => if t = 1 then [RegistryCall.del 3] else [])) 5 ()
      { animated_tiles := [1, 2, 3, 4], dirty := [] }).2.events).Sublist [1, 2, 3, 4] ∧
    dispatched (AnimateAnimatedTiles
      (townOnly (fun t => if t = 1 then [RegistryCall.del 3] else [])) 5 ()
      { animated_tiles := [1, 2, 3, 4], dirty := [] }).2.events = [1, 2, 4] :=
  have h := pass_with_removals_ahead
    (townOnly (fun t => if t = 1 then [RegistryCall.del 3] else [])) ()
    { animated_tiles := [1, 2, 3, 4], dirty := [] } 5 (by decide) (by decide) (by decide)
    (by decide)
  ⟨⟨by decide, by decide, by decide⟩, h.1, h.2.1, by decide⟩

/-- Claim C4 fails on the code.  The table `[1, 2]` is held in storage of capacity 2 and
the town handler called for `1` calls `AddAnimatedTile` for `3`.  `include` then
reallocates while the loop holds its pointer into the old storage: the pass is left
`dangling` after the one call for `1`, with `3` in the table and neither `2` nor `3`
called for.  In storage of capacity 3 the same pass ends with calls for `1`, `2`, `3`. -/
theorem addition_reallocates_under_cursor :
    (AnimateAnimatedTilesStored (townOnly (fun t => if t = 1 then [RegistryCall.add 3] else []))
      2 4 () { animated_tiles := [1, 2], dirty := [] }).1 = StoredStatus.dangling ∧
    dispatched (AnimateAnimatedTilesStored
      (townOnly (fun t => if t = 1 then [RegistryCall.add 3] else []))
      2 4 () { animated_tiles := [1, 2], dirty := [] }).2.events = [1] ∧
    (AnimateAnimatedTilesStored (townOnly (fun t => if t = 1 then [RegistryCall.add 3] else []))
      2 4 () { animated_tiles := [1, 2], dirty := [] }).2.reg.animated_tiles = [1, 2, 3] ∧
    (AnimateAnimatedTilesStored (townOnly (fun t => if t = 1 then [RegistryCall.add 3] else []))
      3 4 () { animated_tiles := [1, 2], dirty := [] }).1 = StoredStatus.finished ∧
    dispatched (AnimateAnimatedTilesStored
      (townOnly (fun t => if t = 1 then [RegistryCall.add 3] else []))
      3 4 () { animated_tiles := [1, 2], dirty := [] }).2.events = [1, 2, 3] := by
  decide

/-- Claim C5.  Whatever calls of `AddAnimatedTile`, `DeleteAnimatedTile` and
`InitializeAnimatedTiles` are made on the empty table, no tile is twice in the table
afterwards. -/
theorem registry_never_holds_a_tile_twice (cs : List RegistryCall) (log : List TileIndex) :
    (runCalls cs { animated_tiles := [], dirty := log }).animated_tiles.Nodup :=
  nodup_runCalls cs _ List.nodup_nil

/-- Claim C6.  `DeleteAnimatedTile` for a tile of the table takes out the first
occurrence of the tile and nothing else: for the slot `k` of that occurrence the table
afterwards is the part in front of `k` followed by the part behind `k`, it is one entry
shorter, the entries in front of `k` keep their slot, the entries behind `k` move one
slot to the front, and the log gains one entry, for that tile. -/
theorem DeleteAnimatedTile_of_present (s : AnimState) (t : TileIndex)
    (h : t ∈ s.animated_tiles) :
    ∃ k, s.animated_tiles[k]? = some t ∧ (∀ j, j < k → s.animated_tiles[j]? ≠ some t) ∧
      (DeleteAnimatedTile t s).animated_tiles
        = s.animated_tiles.take k ++ s.animated_tiles.drop (k + 1) ∧
      (DeleteAnimatedTile t s).animated_tiles.length + 1 = s.animated_tiles.length ∧
      (∀ j, j < k → (DeleteAnimatedTile t s).animated_tiles[j]? = s.animated_tiles[j]?) ∧
      (∀ j, k ≤ j → (DeleteAnimatedTile t s).animated_tiles[j]? = s.animated_tiles[j + 1]?) ∧
      (DeleteAnimatedTile t s).dirty = s.dirty ++ [t] := by
  have hlt : List.indexOf t s.animated_tiles < s.animated_tiles.length :=
    List.indexOf_lt_length.mpr h
  have htiles : (DeleteAnimatedTile t s).animated_tiles
      = s.animated_tiles.eraseIdx (List.indexOf t s.animated_tiles) := by
    rw [tiles_DeleteAnimatedTile, List.eraseIdx_indexOf_eq_erase]
  refine ⟨List.indexOf t s.animated_tiles, ?_, ?_, ?_, ?_, ?_, ?_, ?_⟩
  · rw [List.getElem?_eq_getElem hlt, List.getElem_indexOf hlt]
  · intro j hj hcon
    have hjl : j < s.animated_tiles.length := Nat.lt_trans hj hlt
    rw [List.getElem?_eq_getElem hjl] at hcon
    have hjt : s.animated_tiles[j] = t := Option.some.inj hcon
    exact getElem?_ne_of_lt_indexOf t s.animated_tiles j hj (by rw [List.getElem?_eq_getElem hjl, hjt])
  · rw [htiles, List.eraseIdx_eq_take_drop_succ]
  · rw [htiles, List.length_eraseIdx_of_lt hlt]; omega
  · intro j hj
    rw [htiles, List.getElem?_eraseIdx_of_lt _ _ _ hj]
  · intro j hj
    rw [htiles, List.getElem?_eraseIdx_of_ge _ _ _ hj]
  · rw [dirty_DeleteAnimatedTile, if_pos h]

/-- Deleting `2` from `[1, 2, 3]`. -/
theorem DeleteAnimatedTile_of_present_witness :
    (2 : TileIndex) ∈ [1, 2, 3] ∧
    ∃ k, ([1, 2, 3] : List TileIndex)[k]? = some 2 ∧
      (∀ j, j < k → ([1, 2, 3] : List TileIndex)[j]? ≠ some 2) ∧
      (DeleteAnimatedTile 2 { animated_tiles := [1, 2, 3], dirty := [] }).animated_tiles
        = ([1, 2, 3] : List TileIndex).take k ++ ([1, 2, 3] : List TileIndex).drop (k + 1) ∧
      (DeleteAnimatedTile 2 { animated_tiles := [1, 2, 3], dirty := [] }).animated_tiles.length + 1
        = ([1, 2, 3] : List TileIndex).length ∧
      (∀ j, j < k →
        (DeleteAnimatedTile 2 { animated_tiles := [1, 2, 3], dirty := [] }).animated_tiles[j]?
          = ([1, 2, 3] : List TileIndex)[j]?) ∧
      (∀ j, k ≤ j →
        (DeleteAnimatedTile 2 { animated_tiles := [1, 2, 3], dirty := [] }).animated_tiles[j]?
          = ([1, 2, 3] : List TileIndex)[j + 1]?) ∧
      (DeleteAnimatedTile 2 { animated_tiles := [1, 2, 3], dirty := [] }).dirty = [] ++ [2] :=
  ⟨by decide, DeleteAnimatedTile_of_present { animated_tiles := [1, 2, 3], dirty := [] } 2
    (by decide)⟩

/-- Claim C7.  `AddAnimatedTile` appends a tile that is not in the table at the end,
leaves the table alone when the tile is in it, keeps every entry of the table in its
slot, and adds one entry to the log, for that tile, in both cases. -/
theorem AddAnimatedTile_appends_or_keeps (s : AnimState) (t : TileIndex) :
    (t ∉ s.animated_tiles → (AddAnimatedTile t s).animated_tiles = s.animated_tiles ++ [t]) ∧
    (t ∈ s.animated_tiles → (AddAnimatedTile t s).animated_tiles = s.animated_tiles) ∧
    (∀ j, j < s.animated_tiles.length →
      (AddAnimatedTile t s).animated_tiles[j]? = s.animated_tiles[j]?) ∧
    (AddAnimatedTile t s).dirty = s.dirty ++ [t] := by
  refine ⟨?_, ?_, ?_, rfl⟩
  · intro h
    show vector_include s.animated_tiles t = _
    simp only [vector_include, if_neg h]
  · intro h
    show vector_include s.animated_tiles t = _
    simp only [vector_include, if_pos h]
  · intro j hj
    show (vector_include s.animated_tiles t)[j]? = _
    unfold vector_include
    split
    · rfl
    · exact List.getElem?_append_left hj

/-- Adding `3` to `[1, 2]` and adding `2` to `[1, 2]`. -/
theorem AddAnimatedTile_appends_or_keeps_witness :
    ((3 : TileIndex) ∉ [1, 2] ∧ (2 : TileIndex) ∈ [1, 2]) ∧
    (AddAnimatedTile 3 { animated_tiles := [1, 2], dirty := [] }).animated_tiles = [1, 2] ++ [3] ∧
    (AddAnimatedTile 2 { animated_tiles := [1, 2], dirty := [] }).animated_tiles = [1, 2] :=
  ⟨by decide,
    (AddAnimatedTile_appends_or_keeps { animated_tiles := [1, 2], dirty := [] } 3).1 (by decide),
    (AddAnimatedTile_appends_or_keeps { animated_tiles := [1, 2], dirty := [] } 2).2.1
      (by decide)⟩

/-- Claim C8.  `DeleteAnimatedTile` for a tile that is not in the table changes
nothing: the table and the log are as before. -/
theorem DeleteAnimatedTile_of_absent (s : AnimState) (t : TileIndex)
    (h : t ∉ s.animated_tiles) : DeleteAnimatedTile t s = s := by
  have heq : List.indexOf t s.animated_tiles = s.animated_tiles.length :=
    List.indexOf_eq_length.mpr h
  simp [DeleteAnimatedTile, heq]

/-- Deleting `5` from `[1, 2, 3]`. -/
theorem DeleteAnimatedTile_of_absent_witness :
    (5 : TileIndex) ∉ [1, 2, 3] ∧
    DeleteAnimatedTile 5 { animated_tiles := [1, 2, 3], dirty := [7] }
      = { animated_tiles := [1, 2, 3], dirty := [7] } :=
  ⟨by decide, DeleteAnimatedTile_of_absent { animated_tiles := [1, 2, 3], dirty := [7] } 5
    (by decide)⟩

/-- Claim C9.  Two calls of `AddAnimatedTile` for the same tile leave the same table as
one call; this table holds the tile exactly once when the table at the start had no
duplicates; the log gains two entries, both for that tile. -/
theorem AddAnimatedTile_twice (s : AnimState) (x : TileIndex) :
    (AddAnimatedTile x (AddAnimatedTile x s)).animated_tiles
      = (AddAnimatedTile x s).animated_tiles ∧
    (s.animated_tiles.Nodup →
      (AddAnimatedTile x (AddAnimatedTile x s)).animated_tiles.count x = 1) ∧
    (AddAnimatedTile x (AddAnimatedTile x s)).dirty = s.dirty ++ [x, x] := by
  have hmem : x ∈ (AddAnimatedTile x s).animated_tiles := by
    show x ∈ vector_include s.animated_tiles x
    unfold vector_include
    split
    · assumption
    · simp
  have h1 : (AddAnimatedTile x (AddAnimatedTile x s)).animated_tiles
      = (AddAnimatedTile x s).animated_tiles := by
    show vector_include (AddAnimatedTile x s).animated_tiles x = _
    simp only [vector_include, if_pos hmem]
  refine ⟨h1, ?_, ?_⟩
  · intro hnd
    rw [h1]
    exact List.count_eq_one_of_mem (nodup_vector_include x hnd) hmem
  · show (s.dirty ++ [x]) ++ [x] = _
    simp

/-- Adding `3` twice to `[1, 2]`. -/
theorem AddAnimatedTile_twice_witness :
    ([1, 2] : List TileIndex).Nodup ∧
    (AddAnimatedTile 3 (AddAnimatedTile 3
      { animated_tiles := [1, 2], dirty := [] })).animated_tiles.count 3 = 1 :=
  ⟨by decide,
    (AddAnimatedTile_twice { animated_tiles := [1, 2], dirty := [] } 3).2.1 (by decide)⟩

/-- Claim C10.  There are a table without duplicates and handlers such that one call of
a handler takes two entries out of the table and the pass ends without a call for a
tile that is in the table before and after every call of the pass: the tile is
skipped. -/
theorem multi_removal_skips_a_tile :
    ∃ (env : Handlers Unit) (s : AnimState) (fuel : Nat),
      s.animated_tiles.Nodup ∧
      (AnimateAnimatedTiles env fuel () s).1 = PassStatus.finished ∧
      (∃ e, e ∈ (AnimateAnimatedTiles env fuel () s).2.events ∧
        e.after.length + 2 ≤ e.before.length) ∧
      ∃ t, t ∈ s.animated_tiles ∧
        (∀ e, e ∈ (AnimateAnimatedTiles env fuel () s).2.events → t ∈ e.before ∧ t ∈ e.after) ∧
        t ∉ dispatched (AnimateAnimatedTiles env fuel () s).2.events :=
  ⟨townOnly (fun t => if t = 2 then [.del 1, .del 2] else []),
    { animated_tiles := [1, 2, 3, 4], dirty := [] }, 5,
    by decide, by decide, by decide, 3, by decide, by decide, by decide⟩

/-- Claim C12.  One evaluation of the loop condition with the tile `curr` in the slot of
the cursor: when `curr` is a house, a station, an industry or an object, the loop goes
on with exactly one more recorded call, the call of the town, station, industry or
object handler for `curr`, and the world and the table are what that handler makes of
them; when `curr` has another type the step is `NOT_REACHED()`, no call is recorded
and the pass is aborted in the state it was in. -/
theorem AnimateStep_dispatches_by_type {W : Type} (env : Handlers W) (st : PassState W)
    (curr : TileIndex) (hslot : st.reg.animated_tiles[st.ti]? = some curr) :
    (env.GetTileType st.world curr = TileType.MP_HOUSE →
      ∃ st1, AnimateStep env st = StepResult.next st1 ∧
        st1.world = (env.AnimateTile_Town curr st.world st.reg).1 ∧
        st1.reg = runCalls (env.AnimateTile_Town curr st.world st.reg).2 st.reg ∧
        st1.events = st.events ++
          [{ handler := HandlerId.Town, tile := curr, cursor := st.ti,
             before := st.reg.animated_tiles, after := st1.reg.animated_tiles }]) ∧
    (env.GetTileType st.world curr = TileType.MP_STATION →
      ∃ st1, AnimateStep env st = StepResult.next st1 ∧
        st1.world = (env.AnimateTile_Station curr st.world st.reg).1 ∧
        st1.reg = runCalls (env.AnimateTile_Station curr st.world st.reg).2 st.reg ∧
        st1.events = st.events ++
          [{ handler := HandlerId.Station, tile := curr, cursor := st.ti,
             before := st.reg.animated_tiles, after := st1.reg.animated_tiles }]) ∧
    (env.GetTileType st.world curr = TileType.MP_INDUSTRY →
      ∃ st1, AnimateStep env st = StepResult.next st1 ∧
        st1.world = (env.AnimateTile_Industry curr st.world st.reg).1 ∧
        st1.reg = runCalls (env.AnimateTile_Industry curr st.world st.reg).2 st.reg ∧
        st1.events = st.events ++
          [{ handler := HandlerId.Industry, tile := curr, cursor := st.ti,
             before := st.reg.animated_tiles, after := st1.reg.animated_tiles }]) ∧
    (env.GetTileType st.world curr = TileType.MP_OBJECT →
      ∃ st1, AnimateStep env st = StepResult.next st1 ∧
        st1.world = (env.AnimateTile_Object curr st.world st.reg).1 ∧
        st1.reg = runCalls (env.AnimateTile_Object curr st.world st.reg).2 st.reg ∧
        st1.events = st.events ++
          [{ handler := HandlerId.Object, tile := curr, cursor := st.ti,
             before := st.reg.animated_tiles, after := st1.reg.animated_tiles }]) ∧
    (env.GetTileType st.world curr = TileType.MP_OTHER →
      AnimateStep env st = StepResult.abort ∧
      ∀ fuel, AnimateLoop env (fuel + 1) st = (PassStatus.aborted, st)) := by
  refine ⟨?_, ?_, ?_, ?_, ?_⟩
  · intro h
    have hk : handlerOf (env.GetTileType st.world curr) = some HandlerId.Town := by rw [h]; rfl
    exact ⟨_, AnimateStep_next env st curr _ hslot hk, rfl, rfl, rfl⟩
  · intro h
    have hk : handlerOf (env.GetTileType st.world curr) = some HandlerId.Station := by
      rw [h]; rfl
    exact ⟨_, AnimateStep_next env st curr _ hslot hk, rfl, rfl, rfl⟩
  · intro h
    have hk : handlerOf (env.GetTileType st.world curr) = some HandlerId.Industry := by
      rw [h]; rfl
    exact ⟨_, AnimateStep_next env st curr _ hslot hk, rfl, rfl, rfl⟩
  · intro h
    have hk : handlerOf (env.GetTileType st.world curr) = some HandlerId.Object := by
      rw [h]; rfl
    exact ⟨_, AnimateStep_next env st curr _ hslot hk, rfl, rfl, rfl⟩
  · intro h
    have hk : handlerOf (env.GetTileType st.world curr) = none := by rw [h]; rfl
    have hstep := AnimateStep_abort env st curr hslot hk
    exact ⟨hstep, fun fuel => by simp only [AnimateLoop, hstep]⟩

/-- The first step of the pass over `[1]`: with a house in the slot the town handler is
called, with a tile without handler the step is `NOT_REACHED()`. -/
theorem AnimateStep_dispatches_by_type_witness :
    ([1] : List TileIndex)[0]? = some 1 ∧
    (∃ st1, AnimateStep (townOnly (fun t => [RegistryCall.del t]))
        { world := (), reg := { animated_tiles := [1], dirty := [] }, ti := 0, events := [] }
        = StepResult.next st1 ∧
      st1.world = () ∧
      st1.reg = runCalls [RegistryCall.del 1] { animated_tiles := [1], dirty := [] } ∧
      st1.events = [] ++
        [{ handler := HandlerId.Town, tile := 1, cursor := 0,
           before := [1], after := st1.reg.animated_tiles }]) ∧
    AnimateStep noHandler
      { world := (), reg := { animated_tiles := [1], dirty := [] }, ti := 0, events := [] }
      = StepResult.abort :=
  ⟨rfl,
    (AnimateStep_dispatches_by_type (townOnly (fun t => [RegistryCall.del t]))
      { world := (), reg := { animated_tiles := [1], dirty := [] }, ti := 0, events := [] }
      1 rfl).1 rfl,
    ((AnimateStep_dispatches_by_type noHandler
      { world := (), reg := { animated_tiles := [1], dirty := [] }, ti := 0, events := [] }
      1 rfl).2.2.2.2 rfl).1⟩

/-- Claim C13.  After `InitializeAnimatedTiles` the table is empty, of size 0, and the
log is as before the call; a pass that follows at once ends at the first evaluation of
the loop condition, with no call recorded and the state as `InitializeAnimatedTiles`
left it. -/
theorem InitializeAnimatedTiles_clears {W : Type} (s : AnimState) :
    (InitializeAnimatedTiles s).animated_tiles = [] ∧
    (InitializeAnimatedTiles s).animated_tiles.length = 0 ∧
    (InitializeAnimatedTiles s).dirty = s.dirty ∧
    ∀ (env : Handlers W) (w : W) (fuel : Nat),
      (AnimateAnimatedTiles env (fuel + 1) w (InitializeAnimatedTiles s)).1
        = PassStatus.finished ∧
      (AnimateAnimatedTiles env (fuel + 1) w (InitializeAnimatedTiles s)).2.events = [] ∧
      (AnimateAnimatedTiles env (fuel + 1) w (InitializeAnimatedTiles s)).2.reg
        = InitializeAnimatedTiles s := by
  refine ⟨rfl, rfl, rfl, ?_⟩
  intro env w fuel
  have h := (AnimateLoop_of_empty env fuel
    { world := w, reg := InitializeAnimatedTiles s, ti := 0, events := [] } rfl).2
  unfold AnimateAnimatedTiles
  rw [h]
  exact ⟨rfl, rfl, rfl⟩

/-- Claim C14.  A pass over the empty table: the first evaluation of the loop condition
leaves the loop, so the loop body is not entered; the pass has ended with no call
recorded, the table empty and the world and the log as they were. -/
theorem pass_over_empty_table {W : Type} (env : Handlers W) (w : W) (log : List TileIndex)
    (fuel : Nat) :
    AnimateStep env
      { world := w, reg := { animated_tiles := [], dirty := log }, ti := 0, events := [] }
      = StepResult.exit ∧
    AnimateAnimatedTiles env (fuel + 1) w { animated_tiles := [], dirty := log }
      = (PassStatus.finished,
          { world := w, reg := { animated_tiles := [], dirty := log }, ti := 0, events := [] }) :=
  AnimateLoop_of_empty env fuel
    { world := w, reg := { animated_tiles := [], dirty := log }, ti := 0, events := [] } rfl

/-- Claim C15.  In a pass over a table without duplicates whose handlers add nothing,
however many entries a call takes out, the tiles the handlers are called for form a
sublist of the table at the start: they come in the order of the table and no tile
comes twice.  This holds at every bound on the evaluations of the loop condition. -/
theorem no_revisit_under_removals {W : Type} (env : Handlers W) (w : W) (s : AnimState)
    (fuel : Nat) (hnd : s.animated_tiles.Nodup) (hna : NeverAdds env) :
    (dispatched (AnimateAnimatedTiles env fuel w s).2.events).Nodup ∧
      (dispatched (AnimateAnimatedTiles env fuel w s).2.events).Sublist s.animated_tiles := by
  obtain ⟨new, hev, hsub⟩ := loop_never_adds_sublist env hna fuel
    { world := w, reg := s, ti := 0, events := [] } hnd
  have hev1 : (AnimateAnimatedTiles env fuel w s).2.events = new := by
    simpa using hev
  have hsub1 : (dispatched new).Sublist s.animated_tiles := by simpa using hsub
  rw [hev1]
  exact ⟨hnd.sublist hsub1, hsub1⟩

/-- The pass over `[1, 2, 3, 4]` in which the call for `2` deletes `1` and `2`. -/
theorem no_revisit_under_removals_witness :
    ([1, 2, 3, 4] : List TileIndex).Nodup ∧
    NeverAdds (townOnly
      (fun t => if t = 2 then [RegistryCall.del 1, RegistryCall.del 2] else [])) ∧
    (dispatched (AnimateAnimatedTiles (townOnly
      (fun t => if t = 2 then [RegistryCall.del 1, RegistryCall.del 2] else [])) 5 ()
      { animated_tiles := [1, 2, 3, 4], dirty := [] }).2.events).Nodup ∧
    (dispatched (AnimateAnimatedTiles (townOnly
      (fun t => if t = 2 then [RegistryCall.del 1, RegistryCall.del 2] else [])) 5 ()
      { animated_tiles := [1, 2, 3, 4], dirty := [] }).2.events).Sublist [1, 2, 3, 4] :=
  have hna : NeverAdds (townOnly
      (fun t => if t = 2 then [RegistryCall.del 1, RegistryCall.del 2] else [])) :=
    neverAdds_of_onlyDeletes (onlyDeletes_townOnly _ (fun t c hc => by
      by_cases h : t = 2
      · simp only [h, if_true, List.mem_cons, List.mem_singleton, List.not_mem_nil,
          or_false] at hc
        rcases hc with hc | hc
        · exact ⟨1, hc⟩
        · exact ⟨2, hc⟩
      · simp [h] at hc))
  ⟨by decide, hna, no_revisit_under_removals _ ()
    { animated_tiles := [1, 2, 3, 4], dirty := [] } 5 (by decide) hna⟩

/-- Claim C16.  With handlers that add nothing, every run of the loop body makes the
size of the table minus the cursor smaller, and a pass over a table of size `n` has
stopped after at most `n` calls of handlers: with a bound above `n` on the evaluations
of the loop condition the loop is not running any more and at most `n` calls are
recorded. -/
theorem bounded_pass_under_removals {W : Type} (env : Handlers W) (hna : NeverAdds env) :
    (∀ (st : PassState W) (c : TileIndex) (k : HandlerId),
      st.reg.animated_tiles[st.ti]? = some c →
      (AnimateBody env st c k).reg.animated_tiles.length - (AnimateBody env st c k).ti
        < st.reg.animated_tiles.length - st.ti) ∧
    (∀ (w : W) (s : AnimState) (fuel : Nat), s.animated_tiles.length < fuel →
      (AnimateAnimatedTiles env fuel w s).1 ≠ PassStatus.running ∧
      (AnimateAnimatedTiles env fuel w s).2.events.length ≤ s.animated_tiles.length) := by
  refine ⟨fun st c k h => body_measure env hna st c k h, ?_⟩
  intro w s fuel hfuel
  obtain ⟨new, hev, hlen, hrun, _⟩ := loop_never_adds_stops env hna fuel
    { world := w, reg := s, ti := 0, events := [] } (by simpa using hfuel)
  have hev1 : (AnimateAnimatedTiles env fuel w s).2.events = new := by
    simpa using hev
  refine ⟨hrun, ?_⟩
  rw [hev1]
  simpa using hlen

/-- The pass over `[1, 2, 3]` in which every call deletes the tile called for has
stopped within four evaluations of the loop condition, with at most three calls. -/
theorem bounded_pass_under_removals_witness :
    NeverAdds (townOnly (fun t => [RegistryCall.del t])) ∧
    (AnimateAnimatedTiles (townOnly (fun t => [RegistryCall.del t])) 4 ()
      { animated_tiles := [1, 2, 3], dirty := [] }).1 ≠ PassStatus.running ∧
    (AnimateAnimatedTiles (townOnly (fun t => [RegistryCall.del t])) 4 ()
      { animated_tiles := [1, 2, 3], dirty := [] }).2.events.length ≤ 3 :=
  have hna : NeverAdds (townOnly (fun t => [RegistryCall.del t])) :=
    neverAdds_of_onlyDeletes (onlyDeletes_townOnly _ (fun t c hc => ⟨t, by simpa using hc⟩))
  ⟨hna, (bounded_pass_under_removals (townOnly (fun t => [RegistryCall.del t])) hna).2 ()
    { animated_tiles := [1, 2, 3], dirty := [] } 4 (by decide)⟩

/-- Claim C17 fails on the code.  The table `[1]` has no duplicates and every call of
the handlers below deletes the tile called for, one entry.  In the pass the slot of the
cursor is read below the live end before the call, and read again after the call at an
offset that is not below the size of the table: the slot holds no live entry. -/
theorem reread_past_live_end :
    ([1] : List TileIndex).Nodup ∧
    RemovesAtMostOne (townOnly (fun t => [RegistryCall.del t])) ∧
    ∃ e, e ∈ (AnimateAnimatedTiles (townOnly (fun t => [RegistryCall.del t])) 2 ()
        { animated_tiles := [1], dirty := [] }).2.events ∧
      e.cursor < e.before.length ∧ e.after.length ≤ e.cursor ∧ e.after[e.cursor]? = none :=
  ⟨by decide, removesAtMostOne_townOnly _ (fun t => Or.inr ⟨t, rfl⟩), by decide⟩

/-- Claim C18.  In a table reached from the empty table by calls of `AddAnimatedTile`,
`DeleteAnimatedTile` and `InitializeAnimatedTiles`, after `DeleteAnimatedTile` for the
tile `t` the tile `t` is not in the table, and every other tile is in the table exactly
when it was in it before. -/
theorem DeleteAnimatedTile_removes (cs : List RegistryCall) (log : List TileIndex)
    (t : TileIndex) :
    t ∉ (DeleteAnimatedTile t
      (runCalls cs { animated_tiles := [], dirty := log })).animated_tiles ∧
    ∀ u, u ≠ t →
      (u ∈ (DeleteAnimatedTile t
          (runCalls cs { animated_tiles := [], dirty := log })).animated_tiles ↔
        u ∈ (runCalls cs { animated_tiles := [], dirty := log }).animated_tiles) := by
  have hnd := nodup_runCalls cs { animated_tiles := [], dirty := log } List.nodup_nil
  rw [tiles_DeleteAnimatedTile]
  exact ⟨hnd.not_mem_erase, fun u hu => List.mem_erase_of_ne hu⟩

/-- Deleting `2` from the table reached by adding `1`, `2`, `3`. -/
theorem DeleteAnimatedTile_removes_witness :
    (2 : TileIndex) ∉ (DeleteAnimatedTile 2 (runCalls
      [RegistryCall.add 1, RegistryCall.add 2, RegistryCall.add 3]
      { animated_tiles := [], dirty := [] })).animated_tiles ∧
    ((3 : TileIndex) ≠ 2 ∧
      ((3 : TileIndex) ∈ (DeleteAnimatedTile 2 (runCalls
          [RegistryCall.add 1, RegistryCall.add 2, RegistryCall.add 3]
          { animated_tiles := [], dirty := [] })).animated_tiles ↔
        (3 : TileIndex) ∈ (runCalls
          [RegistryCall.add 1, RegistryCall.add 2, RegistryCall.add 3]
          { animated_tiles := [], dirty := [] }).animated_tiles)) :=
  ⟨(DeleteAnimatedTile_removes [RegistryCall.add 1, RegistryCall.add 2, RegistryCall.add 3]
      [] 2).1,
    by decide,
    (DeleteAnimatedTile_removes [RegistryCall.add 1, RegistryCall.add 2, RegistryCall.add 3]
      [] 2).2 3 (by decide)⟩

/-- Claim C19.  `AddAnimatedTile` for a tile that is not in the table, followed by
`DeleteAnimatedTile` for the same tile, leaves the table as it was, the same entries in
the same order, and the log gains two entries, both for that tile. -/
theorem AddAnimatedTile_then_DeleteAnimatedTile (s : AnimState) (t : TileIndex)
    (h : t ∉ s.animated_tiles) :
    (DeleteAnimatedTile t (AddAnimatedTile t s)).animated_tiles = s.animated_tiles ∧
    (DeleteAnimatedTile t (AddAnimatedTile t s)).dirty = s.dirty ++ [t, t] := by
  have hadd : (AddAnimatedTile t s).animated_tiles = s.animated_tiles ++ [t] := by
    rw [tiles_AddAnimatedTile]
    simp only [vector_include, if_neg h]
  have hmem : t ∈ (AddAnimatedTile t s).animated_tiles := by rw [hadd]; simp
  constructor
  · rw [tiles_DeleteAnimatedTile, hadd, List.erase_append_right _ h]
    simp
  · rw [dirty_DeleteAnimatedTile, if_pos hmem, dirty_AddAnimatedTile]
    simp

/-- Adding `3` to `[1, 2]` and deleting it again. -/
theorem AddAnimatedTile_then_DeleteAnimatedTile_witness :
    (3 : TileIndex) ∉ [1, 2] ∧
    (DeleteAnimatedTile 3 (AddAnimatedTile 3
      { animated_tiles := [1, 2], dirty := [7] })).animated_tiles = [1, 2] ∧
    (DeleteAnimatedTile 3 (AddAnimatedTile 3
      { animated_tiles := [1, 2], dirty := [7] })).dirty = [7] ++ [3, 3] :=
  ⟨by decide, AddAnimatedTile_then_DeleteAnimatedTile
    { animated_tiles := [1, 2], dirty := [7] } 3 (by decide)⟩

end AnimatedTile
